import Mathlib

/-!
Verification development for the VoiceMate ingestion core.

The definitions below are shallow embeddings of the Python source under
`src/`: the text-cleaning pipeline (`src/utils/text_cleaner.py`), the table
extractor (`src/utils/extract_tables.py`), the structured-content formatter
(`src/file_parser/pdf_content_formatter.py`), the image extractor and
description policy (`src/file_parser/pdf_image_extractor.py`,
`src/utils/image_describer.py`), metadata/text extraction
(`src/file_parser/pdf_parser.py`) and the unique-filename rule
(`src/file_parser/other_files_parser.py`).

Python regular-expression substitutions (`re.sub`) are embedded as leftmost,
non-overlapping scanners over `List Char` driven by per-pattern matchers;
each matcher reports how many characters the match consumes and the
replacement text.  Machine floats are modelled as `ℚ`; Python exceptions are
modelled as `Option`/`Except` values.
-/

namespace VoiceMate

/-! ## Character classes (Python `re` classes restricted to the ranges that
occur in this code base: ASCII plus the specific non-ASCII characters named
by the patterns). -/

/-- Python `\s` (the whitespace characters relevant here): space, tab,
newline, carriage return, vertical tab, form feed. -/
def pyIsSpace (c : Char) : Bool :=
  c.toNat = 32 || c.toNat = 9 || c.toNat = 10 || c.toNat = 13 ||
  c.toNat = 11 || c.toNat = 12

/-- ASCII letter, Python `[A-Za-z]`. -/
def isAsciiLetter (c : Char) : Bool :=
  (65 ≤ c.toNat && c.toNat ≤ 90) || (97 ≤ c.toNat && c.toNat ≤ 122)

/-- ASCII digit, Python `\d` on the ASCII texts this pipeline meets. -/
def isDigitA (c : Char) : Bool :=
  48 ≤ c.toNat && c.toNat ≤ 57

/-- ASCII-range case folding used by `re.IGNORECASE` on the ASCII patterns
of `text_cleaner.py`. -/
def toLowerA (c : Char) : Char :=
  if 65 ≤ c.toNat && c.toNat ≤ 90 then Char.ofNat (c.toNat + 32) else c

/-- Bullet characters of the pattern `[••\-–—]`: U+2022, hyphen, en dash,
em dash. -/
def isBullet (c : Char) : Bool :=
  c.toNat = 8226 || c.toNat = 45 || c.toNat = 8211 || c.toNat = 8212

/-- The fixed special-character class of `remove_repeated_chars`, by
codepoint: `. / & * + = # @ $ % ^ ( ) { } [ ] | \ : ; < > ? ~` backquote
and double quote. -/
def specialCodes : List Nat :=
  [46, 47, 38, 42, 43, 61, 35, 64, 36, 37, 94, 40, 41, 123, 125, 91, 93,
   124, 92, 58, 59, 60, 62, 63, 126, 96, 34]

/-- Membership in the special-character class. -/
def isSpecialChar (c : Char) : Bool := specialCodes.contains c.toNat

/-- Python `\w` (word characters), modelled for the Latin scripts the
pipeline meets: ASCII alphanumerics, underscore, and Latin-1/Latin-Extended
letters. -/
def isWordChar (c : Char) : Bool :=
  isAsciiLetter c || isDigitA c || c.toNat = 95 ||
  (192 ≤ c.toNat && c.toNat ≤ 591)

/-- Characters kept by the final `re.sub(r'[^\w\s.,!?-]', '', text)`:
word characters, whitespace, and `. , ! ? -`. -/
def isAllowedChar (c : Char) : Bool :=
  isWordChar c || pyIsSpace c || c.toNat = 46 || c.toNat = 44 ||
  c.toNat = 33 || c.toNat = 63 || c.toNat = 45

/-- Emoji / pictographic codepoints removed by `emoji.replace_emoji`,
modelled by the main emoji blocks. -/
def isEmojiChar (c : Char) : Bool :=
  (127744 ≤ c.toNat && c.toNat ≤ 129791) ||
  (9728 ≤ c.toNat && c.toNat ≤ 10175) ||
  (126976 ≤ c.toNat && c.toNat ≤ 127487) ||
  c.toNat = 65039

/-! ## A leftmost, non-overlapping substitution scanner: the embedding of
`re.sub`.  A matcher receives the current suffix and either fails or
returns `(n, rep)`: the match consumes `n ≥ 1` characters and is replaced
by `rep`.  Replacement text is not rescanned, matches do not overlap, and
on failure the scanner advances one character — exactly `re.sub`'s
behaviour for the patterns embedded here (none of them can match the empty
string).  The `fuel` argument makes the definition structural; it is
initialised with the string length, which step consumption `n ≥ 1` makes
sufficient. -/

def subAllF (tryM : List Char → Option (Nat × List Char)) :
    Nat → List Char → List Char
  | _, [] => []
  | 0, s => s
  | fuel + 1, c :: cs =>
    match tryM (c :: cs) with
    | some (n + 1, rep) => rep ++ subAllF tryM fuel (List.drop n cs)
    | _ => c :: subAllF tryM fuel cs

/-- Run a substitution over a whole string. -/
def subAll (tryM : List Char → Option (Nat × List Char)) (s : List Char) :
    List Char :=
  subAllF tryM s.length s

/-- Wrap a delete-only matcher (replacement is always empty). -/
def mkDel (m : List Char → Option Nat) :
    List Char → Option (Nat × List Char) :=
  fun s => (m s).map (fun n => (n, []))

/-! ## The scanner for `re.MULTILINE` patterns anchored as `^...$`
(the bullet-line and header-line artifacts).  The Boolean flag records
whether the current position is a line start (string start or preceded by
a newline); a matcher is only tried there.  Matchers delete their match. -/

def subAnchF (tryM : List Char → Option Nat) :
    Nat → Bool → List Char → List Char
  | _, _, [] => []
  | 0, _, s => s
  | fuel + 1, atStart, c :: cs =>
    if atStart then
      match tryM (c :: cs) with
      | some (n + 1) =>
          subAnchF tryM fuel (decide (List.getD (c :: cs) n ' ' = '\n'))
            (List.drop n cs)
      | _ => c :: subAnchF tryM fuel (decide (c = '\n')) cs
    else c :: subAnchF tryM fuel (decide (c = '\n')) cs

/-- Run an anchored substitution; position 0 is a line start. -/
def subAnch (tryM : List Char → Option Nat) (s : List Char) : List Char :=
  subAnchF tryM s.length true s

/-- Index of the last character satisfying `p`, if any. -/
def lastIdxP (p : Char → Bool) : List Char → Option Nat
  | [] => none
  | c :: cs =>
    match lastIdxP p cs with
    | some j => some (j + 1)
    | none => if p c then some 0 else none

/-- Case-insensitive (ASCII) literal match: returns the consumed count on
success. -/
def matchCI : List Char → List Char → Option Nat
  | [], _ => some 0
  | _ :: _, [] => none
  | p :: ps, c :: cs =>
    if toLowerA c = toLowerA p then (matchCI ps cs).map (· + 1) else none

/-- Case-sensitive literal match: returns the consumed count on success. -/
def matchLit : List Char → List Char → Option Nat
  | [], _ => some 0
  | _ :: _, [] => none
  | p :: ps, c :: cs =>
    if c = p then (matchLit ps cs).map (· + 1) else none

/-! ## TextCleaner (src/utils/text_cleaner.py)

Each regular expression of the pipeline becomes a matcher; the stage
methods compose the scanners in source order. -/

namespace TextCleaner

open VoiceMate

/-- Matcher for `Page\s*\d+` (IGNORECASE): the literal `Page`, optional
whitespace, then at least one digit; quantifiers are greedy and freed
characters can never satisfy the following atom, so no backtracking
arises. -/
def tryPage (s : List Char) : Option Nat :=
  match matchCI ("page".toList) s with
  | none => none
  | some k =>
    let rest := s.drop k
    let ws := rest.takeWhile pyIsSpace
    let ds := (rest.drop ws.length).takeWhile isDigitA
    if ds.isEmpty then none else some (k + ws.length + ds.length)

/-- Matcher for `CONFIDENTIAL|DRAFT|WATERMARK` (IGNORECASE), alternatives
tried in source order. -/
def tryWords (s : List Char) : Option Nat :=
  (matchCI ("confidential".toList) s).orElse fun _ =>
    (matchCI ("draft".toList) s).orElse fun _ =>
      matchCI ("watermark".toList) s

/-- Matcher for `\d+\s+of\s+\d+` (IGNORECASE). -/
def tryNofM (s : List Char) : Option Nat :=
  let ds1 := s.takeWhile isDigitA
  if ds1.isEmpty then none else
  let r1 := s.drop ds1.length
  let ws1 := r1.takeWhile pyIsSpace
  if ws1.isEmpty then none else
  match matchCI ("of".toList) (r1.drop ws1.length) with
  | none => none
  | some k =>
    let r2 := (r1.drop ws1.length).drop k
    let ws2 := r2.takeWhile pyIsSpace
    if ws2.isEmpty then none else
    let ds2 := (r2.drop ws2.length).takeWhile isDigitA
    if ds2.isEmpty then none else
    some (ds1.length + ws1.length + k + ws2.length + ds2.length)

/-- Trailing `\s*$` of a `re.MULTILINE` line pattern, starting after `pre`
characters already consumed: greedily extend over the whitespace run `ws`
and backtrack until `$` holds (end of input, or just before a newline).
Returns the total consumed count. -/
def closeLineEnd (pre : Nat) (rest : List Char) : Option Nat :=
  let ws := rest.takeWhile pyIsSpace
  if (rest.drop ws.length).isEmpty then some (pre + ws.length)
  else
    match lastIdxP (fun c => c = '\n') ws with
    | some j => some (pre + j)
    | none => none

/-- Matcher for the bullet-only-line artifact `^\s*[••\-–—]+\s*$`
(MULTILINE); tried only at line starts. -/
def tryBulletLine (s : List Char) : Option Nat :=
  let ws := s.takeWhile pyIsSpace
  let r1 := s.drop ws.length
  let bs := r1.takeWhile isBullet
  if bs.isEmpty then none
  else closeLineEnd (ws.length + bs.length) (r1.drop bs.length)

/-- Matcher for the header/footer artifact `^\s*[A-Za-z\s]+\|\s*\d+\s*$`
(MULTILINE); the leading `\s*` is absorbed by the following class, which
also contains `\s`. -/
def tryHeaderLine (s : List Char) : Option Nat :=
  let m := s.takeWhile (fun c => isAsciiLetter c || pyIsSpace c)
  if m.isEmpty then none else
  match s.drop m.length with
  | '|' :: r2 =>
    let ws2 := r2.takeWhile pyIsSpace
    let ds := (r2.drop ws2.length).takeWhile isDigitA
    if ds.isEmpty then none
    else closeLineEnd (m.length + 1 + ws2.length + ds.length)
      ((r2.drop ws2.length).drop ds.length)
  | _ => none

/-- Matcher for `\[\d+\]`. -/
def tryBracketNum (s : List Char) : Option Nat :=
  match s with
  | '[' :: r =>
    let ds := r.takeWhile isDigitA
    if ds.isEmpty then none else
    match r.drop ds.length with
    | ']' :: _ => some (1 + ds.length + 1)
    | _ => none
  | _ => none

/-- Matcher for `\(\d+\)`. -/
def tryParenNum (s : List Char) : Option Nat :=
  match s with
  | '(' :: r =>
    let ds := r.takeWhile isDigitA
    if ds.isEmpty then none else
    match r.drop ds.length with
    | ')' :: _ => some (1 + ds.length + 1)
    | _ => none
  | _ => none

/-- Matcher for the author-year citation `\([A-Za-z]+ et al\., \d{4}\)`. -/
def tryEtAl (s : List Char) : Option Nat :=
  match s with
  | '(' :: r =>
    let ls := r.takeWhile isAsciiLetter
    if ls.isEmpty then none else
    match matchLit (" et al., ".toList) (r.drop ls.length) with
    | none => none
    | some k =>
      match (r.drop ls.length).drop k with
      | d1 :: d2 :: d3 :: d4 :: ')' :: _ =>
        if isDigitA d1 && isDigitA d2 && isDigitA d3 && isDigitA d4 then
          some (1 + ls.length + k + 5)
        else none
      | _ => none
  | _ => none

/-- Matcher for the footnote pattern `\*\s?.*?(\n|$)`: a star, at most one
whitespace character (greedy, so a directly following newline is
consumed), then — since `.` excludes newlines and the alternation prefers
`\n` — everything up to and including the next newline, or to the end. -/
def tryStarLine (s : List Char) : Option Nat :=
  match s with
  | '*' :: r =>
    let opt := if (r.takeWhile pyIsSpace).isEmpty then 0 else 1
    let body := (r.drop opt).takeWhile (fun c => c ≠ '\n')
    match (r.drop opt).drop body.length with
    | '\n' :: _ => some (1 + opt + body.length + 1)
    | _ => some (1 + opt + body.length)
  | _ => none

/-- Matcher for `\n{2,}`, replaced by exactly two newlines. -/
def tryNlRun (s : List Char) : Option (Nat × List Char) :=
  let run := s.takeWhile (fun c => c = '\n')
  if 2 ≤ run.length then some (run.length, ['\n', '\n']) else none

/-- Matcher for `\s+`, replaced by a single space. -/
def tryWsRun (s : List Char) : Option (Nat × List Char) :=
  let run := s.takeWhile pyIsSpace
  if 1 ≤ run.length then some (run.length, [' ']) else none

/-- Matcher for `([special]){3,}`: the group captures one class character
per repetition, so a match is any run of three or more special characters
(not necessarily equal), and the replacement `\1\1` doubles the last
captured character. -/
def trySpecialRun (s : List Char) : Option (Nat × List Char) :=
  let run := s.takeWhile isSpecialChar
  match run.getLast? with
  | some l => if 3 ≤ run.length then some (run.length, [l, l]) else none
  | none => none

/-- Replacement of `(?<!\n)\n(?!\n)` by a space: a newline is replaced
when neither neighbour is a newline (`prev` is the previous character,
`none` at the string start). -/
def singleNlAux : Option Char → List Char → List Char
  | _, [] => []
  | prev, c :: cs =>
    (if c = '\n' && prev ≠ some '\n' && cs.head? ≠ some '\n' then ' ' else c)
      :: singleNlAux (some c) cs

/-- Stage regex 1 of `normalize_whitespace`. -/
def singleNlToSpace (s : List Char) : List Char := singleNlAux none s

/-- Python `str.replace(old, new)` for a one-character needle. -/
def replaceChar (old : Char) (new : List Char) (s : List Char) : List Char :=
  s.flatMap (fun c => if c = old then new else [c])

/-- Python `x.strip()` (both-ends whitespace trim). -/
def trimL (s : List Char) : List Char :=
  ((s.dropWhile pyIsSpace).reverse.dropWhile pyIsSpace).reverse

/-- Method `remove_pdf_artifacts`: the six `re.sub` calls in source
order. -/
def remove_pdf_artifacts (s : List Char) : List Char :=
  subAnch tryHeaderLine
    (subAll (mkDel tryNofM)
      (subAll (mkDel tryWords)
        (subAnch tryBulletLine
          (subAll (mkDel tryPage)
            (List.filter (fun c => c ≠ '\x0c') s)))))

/-- Method `normalize_whitespace`. -/
def normalize_whitespace (s : List Char) : List Char :=
  subAll tryWsRun (subAll tryNlRun (singleNlToSpace s))

/-- Method `remove_emojis_and_special_chars`
(`emoji.replace_emoji(text, replace='')`). -/
def remove_emojis_and_special_chars (s : List Char) : List Char :=
  List.filter (fun c => !isEmojiChar c) s

/-- Method `remove_references_and_notes`. -/
def remove_references_and_notes (s : List Char) : List Char :=
  subAll (mkDel tryStarLine)
    (subAll (mkDel tryEtAl)
      (subAll (mkDel tryParenNum)
        (subAll (mkDel tryBracketNum) s)))

/-- Method `normalize_punctuation`: the seven `str.replace` calls in
dictionary order. -/
def normalize_punctuation (s : List Char) : List Char :=
  replaceChar (Char.ofNat 187) ['>', '>']
    (replaceChar (Char.ofNat 171) ['<', '<']
      (replaceChar (Char.ofNat 8250) ['>']
        (replaceChar (Char.ofNat 8249) ['<']
          (replaceChar (Char.ofNat 8230) ['.', '.', '.']
            (replaceChar (Char.ofNat 8212) ['-']
              (replaceChar (Char.ofNat 8211) ['-'] s))))))

/-- Method `remove_repeated_chars`. -/
def remove_repeated_chars (s : List Char) : List Char :=
  subAll trySpecialRun s

/-- Method `final_cleanup`: `' '.join(text.split())` (whitespace runs
collapse to single spaces and boundary whitespace disappears, embedded
here as run-collapse followed by a trim), then `remove_repeated_chars`,
then the character whitelist. -/
def final_cleanup (s : List Char) : List Char :=
  List.filter isAllowedChar
    (remove_repeated_chars (trimL (subAll tryWsRun s)))

/-- Method `clean_text` on character lists: the six stages in source
order, then `str.strip()`. -/
def clean_textL (s : List Char) : List Char :=
  trimL
    (final_cleanup
      (normalize_punctuation
        (remove_references_and_notes
          (remove_emojis_and_special_chars
            (normalize_whitespace
              (remove_pdf_artifacts s))))))

/-- Method `clean_text` on strings, including the initial empty-text
guard. -/
def clean_text (s : String) : String :=
  if s = "" then "" else (clean_textL s.toList).asString

/-- Modelled from the spec: the final pass "collapses any run of 3+
identical special characters (from a fixed class) down to exactly 2" — a
run of three or more equal special characters, and only such a run,
becomes two copies of that character. -/
def spec_tryIdenticalRun (s : List Char) : Option (Nat × List Char) :=
  match s with
  | [] => none
  | c :: _ =>
    if isSpecialChar c then
      let run := s.takeWhile (fun x => x = c)
      if 3 ≤ run.length then some (run.length, [c, c]) else none
    else none

/-- Modelled from the spec: `final_cleanup` with the spec's version of the
repeated-character collapse, all other steps unchanged. -/
def spec_final_cleanup (s : List Char) : List Char :=
  List.filter isAllowedChar
    (subAll spec_tryIdenticalRun (trimL (subAll tryWsRun s)))

/-- Modelled from the spec: `clean_text` whose final pass collapses only
identical special-character runs. -/
def spec_clean_text (s : String) : String :=
  if s = "" then ""
  else
    (trimL
      (spec_final_cleanup
        (normalize_punctuation
          (remove_references_and_notes
            (remove_emojis_and_special_chars
              (normalize_whitespace
                (remove_pdf_artifacts s.toList))))))).asString

/-- A lowercase ASCII letter — the character class on which the whole
cleaning pipeline is inert. -/
def SafeChar (c : Char) : Prop := 97 ≤ c.toNat ∧ c.toNat ≤ 122

instance : DecidablePred SafeChar :=
  fun c => inferInstanceAs (Decidable (97 ≤ c.toNat ∧ c.toNat ≤ 122))

/-- Text made of lowercase ASCII letters that avoids the watermark
keywords. -/
def SafeText (s : String) : Prop :=
  (∀ c ∈ s.toList, SafeChar c) ∧
  ¬ ("confidential".toList <:+: s.toList) ∧
  ¬ ("draft".toList <:+: s.toList) ∧
  ¬ ("watermark".toList <:+: s.toList)

instance (s : String) : Decidable (SafeText s) :=
  inferInstanceAs (Decidable ((∀ c ∈ s.toList, SafeChar c) ∧
    ¬ ("confidential".toList <:+: s.toList) ∧
    ¬ ("draft".toList <:+: s.toList) ∧
    ¬ ("watermark".toList <:+: s.toList)))

end TextCleaner

/-! ## PDFTableParser (src/utils/extract_tables.py)

Grids are rectangular lists of cell strings as read by camelot; `pd.NA`
is `Option.none`; `astype(str)` renders a surviving `pd.NA` cell as the
string `<NA>`, exactly as pandas does.  Accuracy values and content
ratios are `ℚ`; the stored record keeps them un-rounded (the code's
`round(x, 2)` affects no acceptance decision and no claim). -/

namespace Tables

open VoiceMate

/-- Python `str.strip()`. -/
def trimS (s : String) : String := (TextCleaner.trimL s.toList).asString

/-- The `replace('', pd.NA)` step on one cell. -/
def naMark (s : String) : Option String := if s = "" then none else some s

/-- The `astype(str)` rendering of a cell (`pd.NA` prints as `<NA>`). -/
def cellStr : Option String → String
  | none => "<NA>"
  | some s => s

/-- Column `j` consists only of `pd.NA` cells. -/
def colAllNone (g : List (List (Option String))) (j : ℕ) : Bool :=
  g.all (fun r => (r.getD j none).isNone)

/-- Static method `_clean_table_dataframe`: mark empties as NA, drop
all-NA rows, drop all-NA columns, drop rows whose `astype(str)`-rendered
cells all strip to the empty string, then strip every cell. -/
def clean_table_dataframe (grid : List (List String)) : List (List String) :=
  let g1 := grid.map (List.map naMark)
  let g2 := g1.filter (fun r => !r.all (fun c => c.isNone))
  let g3 := g2.map (fun r =>
    (List.range r.length).filterMap (fun j =>
      if colAllNone g2 j then none else some (r.getD j none)))
  let g4 := g3.filter (fun r => !r.all (fun c => trimS (cellStr c) = ""))
  g4.map (List.map (fun c => trimS (cellStr c)))

/-- Row count, `df.shape[0]`. -/
def shapeRows (g : List (List String)) : ℕ := g.length

/-- Column count, `df.shape[1]`. -/
def shapeCols (g : List (List String)) : ℕ := (g.headD []).length

/-- Pandas `df.empty` (an axis of length zero). -/
def dfEmpty (g : List (List String)) : Bool :=
  shapeRows g = 0 || shapeCols g = 0

/-- Static method `_calculate_content_ratio`. -/
def content_ratio (g : List (List String)) : ℚ :=
  if dfEmpty g then 0
  else
    let nonEmpty := (g.map (fun r => (r.filter (fun s => trimS s ≠ "")).length)).sum
    let total := shapeRows g * shapeCols g
    if total = 0 then 0 else (nonEmpty : ℚ) / (total : ℚ)

/-- One raw table as detected by camelot: its cell grid, the parsing
report's accuracy, and its page. -/
structure RawTable where
  grid : List (List String)
  accuracy : ℚ
  page : ℕ

/-- One accepted table. -/
structure TableRecord where
  table_id : ℕ
  page : ℕ
  accuracy : ℚ
  content_ratio : ℚ
  rows : ℕ
  cols : ℕ
  data : List (List String)
deriving DecidableEq

/-- The per-table body of the `extract_tables` loop at enumeration index
`i`: clean, reject small grids, accept on the ratio/accuracy
disjunction. -/
def processTable (i : ℕ) (t : RawTable) : Option TableRecord :=
  let df := clean_table_dataframe t.grid
  if dfEmpty df = true ∨ shapeRows df < 2 ∨ shapeCols df < 2 then none
  else
    let ratio := content_ratio df
    if (1 : ℚ)/10 < ratio ∨ 40 < t.accuracy then
      some ⟨i, t.page, t.accuracy, ratio, shapeRows df, shapeCols df, df⟩
    else none

/-- The `for i, table in enumerate(tables)` loop. -/
def extract_tablesAux : ℕ → List RawTable → List TableRecord
  | _, [] => []
  | i, t :: ts =>
    match processTable i t with
    | some r => r :: extract_tablesAux (i + 1) ts
    | none => extract_tablesAux (i + 1) ts

/-- Method `extract_tables`: the camelot read (with any exception raised
inside the `try` block modelled as `Except.error`) followed by the
enumeration loop; every failure path returns the empty list. -/
def extract_tables (detection : Except String (List RawTable)) :
    List TableRecord :=
  match detection with
  | .error _ => []
  | .ok ts => extract_tablesAux 0 ts

/-- The acceptance decision as a pure function of shape, content ratio
and accuracy (source lines 54 and 59): at least two rows and two columns
remain, and the content ratio exceeds 0.1 or the accuracy exceeds 40. -/
def table_accept (rows cols : ℕ) (ratio accuracy : ℚ) : Prop :=
  (2 ≤ rows ∧ 2 ≤ cols) ∧ ((1 : ℚ)/10 < ratio ∨ 40 < accuracy)

instance (rows cols : ℕ) (ratio accuracy : ℚ) :
    Decidable (table_accept rows cols ratio accuracy) :=
  inferInstanceAs (Decidable (_ ∧ _))

/-- Modelled from the spec: "drop rows/columns that are entirely empty
after whitespace trimming, then drop any row that is blank post-trim" —
the cleaning rule the claim ascribes to `_clean_table_dataframe`. -/
def spec_clean_table (grid : List (List String)) : List (List String) :=
  let g2 := grid.filter (fun r => !r.all (fun s => trimS s = ""))
  let g3 := g2.map (fun r =>
    (List.range r.length).filterMap (fun j =>
      if g2.all (fun row => trimS (row.getD j "") = "") then none
      else some (r.getD j "")))
  g3.filter (fun r => !r.all (fun s => trimS s = ""))

end Tables

/-! ## PDFImageExtractor and ImageDescriber
(src/file_parser/pdf_image_extractor.py, src/utils/image_describer.py)

Per-image failure modes (`fitz.Pixmap` raising, the size filter, the file
write failing) are explicit fields; the description collaborator is an
oracle giving the path-based and bytes-based outcomes. -/

namespace Images

open VoiceMate

/-- A decoded pixmap. -/
structure Pix where
  width : ℕ
  height : ℕ
  dataSize : ℕ

/-- One embedded image of a page: `pix = none` models the
`fitz.Pixmap`/`tobytes` call raising; `saveOk = false` models the file
write raising `OSError`. -/
structure RawImage where
  pix : Option Pix
  saveOk : Bool

/-- One page: `loadOk = false` models `load_page`/`get_images`
raising. -/
structure PageImages where
  loadOk : Bool
  images : List RawImage

/-- The description collaborator: its availability flag and the texts its
two endpoints would return when available. -/
structure DescriberModel where
  available : Bool
  pathResult : String
  bytesResult : String

/-- Method `ImageDescriber.describe_image`: the unavailable guard, then
the collaborator's path-based outcome. -/
def describe_image (d : DescriberModel) : String :=
  if d.available then d.pathResult else "Image description not available"

/-- Method `ImageDescriber.describe_image_from_bytes`. -/
def describe_image_from_bytes (d : DescriberModel) : String :=
  if d.available then d.bytesResult else "Image description not available"

/-- The retry trigger of `_get_image_description` (source lines
146-149): `description.startswith('Error')` or equality with the
unavailable sentinel. -/
def needsRetry (r : String) : Bool :=
  "Error".toList.isPrefixOf r.toList || r = "Image description not available"

/-- Method `PDFImageExtractor._get_image_description`, instrumented with
the number of path-based and bytes-based collaborator calls made. -/
def get_image_description (describe_images : Bool)
    (describer : Option DescriberModel) : String × ℕ × ℕ :=
  match describe_images, describer with
  | false, _ => ("No description available", 0, 0)
  | true, none => ("No description available", 0, 0)
  | true, some d =>
    let r1 := describe_image d
    if needsRetry r1 then (describe_image_from_bytes d, 1, 1) else (r1, 1, 0)

/-- One extracted image record. -/
structure ImageRecord where
  page : ℕ
  filename : String
  width : ℕ
  height : ℕ
  size_kb : ℚ
  description : String
deriving DecidableEq

/-- The inner `for img_index, image in enumerate(image_list)` loop on the
page numbered `pn + 1`: a failing pixmap decode is skipped, then the size
filter, then a failing write, otherwise a record is emitted. -/
def extractPageImages (describe_images : Bool)
    (describer : Option DescriberModel) (pn : ℕ) :
    ℕ → List RawImage → List ImageRecord
  | _, [] => []
  | idx, ⟨none, _⟩ :: ims =>
    extractPageImages describe_images describer pn (idx + 1) ims
  | idx, ⟨some px, saveOk⟩ :: ims =>
    (if px.width < 50 ∨ px.height < 50 then []
     else if saveOk = false then []
     else
       [{ page := pn + 1
          filename := "image_p" ++ toString (pn + 1) ++ "_" ++
            toString (idx + 1) ++ ".png"
          width := px.width
          height := px.height
          size_kb := (px.dataSize : ℚ) / 1024
          description := (get_image_description describe_images describer).1 }])
      ++ extractPageImages describe_images describer pn (idx + 1) ims

/-- The outer `for page_num in range(len(doc))` loop. -/
def extractImagesAux (describe_images : Bool)
    (describer : Option DescriberModel) :
    ℕ → List PageImages → List ImageRecord
  | _, [] => []
  | pn, p :: ps =>
    (if p.loadOk then extractPageImages describe_images describer pn 0 p.images
     else []) ++ extractImagesAux describe_images describer (pn + 1) ps

/-- Method `PDFImageExtractor.extract_images`. -/
def extract_images (doc : List PageImages) (describe_images : Bool)
    (describer : Option DescriberModel) : List ImageRecord :=
  extractImagesAux describe_images describer 0 doc

end Images

/-! ## PDFContentFormatter (src/file_parser/pdf_content_formatter.py) -/

namespace Formatter

open VoiceMate

/-- One page of an open document: `text = none` models
`load_page`/`get_text` raising `RuntimeError` (handled per page). -/
structure PageSpec where
  text : Option String

/-- One entry of the structured content. -/
structure PageContent where
  page : ℕ
  text : String
  images : List Images.ImageRecord

/-- Method `create_structured_content` on a freshly constructed
formatter: one entry per page of the open document, the page's text (empty
on a per-page extraction error) and the images filed under that page. -/
def create_structured_content (doc : List PageSpec)
    (images : List Images.ImageRecord) : List PageContent :=
  (List.range doc.length).map (fun pn =>
    { page := pn + 1
      text := ((doc.getD pn ⟨none⟩).text).getD ""
      images := images.filter (fun im => im.page = pn + 1) })

end Formatter

/-! ## PdfParser metadata and text extraction
(src/file_parser/pdf_parser.py) -/

namespace Metadata

/-- The filesystem-derived values (`os.stat` plus `basename`,
`fromtimestamp`). -/
structure FileStats where
  filename : String
  file_size_mb : ℚ
  modified_time : String

/-- The document-level values read from the open `fitz` document. -/
structure DocMeta where
  title : String
  author : String
  creation_date : String
  page_count : ℕ

/-- A metadata dictionary value. -/
inductive MetaValue
  | str : String → MetaValue
  | num : ℚ → MetaValue
  | nat : ℕ → MetaValue
deriving DecidableEq

/-- Method `extract_metadata`: `stat = none` models the filesystem-stat
block raising `OSError` (early return with only the error key);
`docRes = none` models `fitz.open`/metadata reading raising (non-fatal
extra error key).  The association list preserves the dict's insertion
order. -/
def extract_metadata (stat : Option FileStats) (docRes : Option DocMeta) :
    List (String × MetaValue) :=
  match stat with
  | none => [("error", .str "Failed to get file stats")]
  | some st =>
    let base := [("filename", .str st.filename),
                 ("file_size_mb", .num st.file_size_mb),
                 ("modified_time", .str st.modified_time)]
    match docRes with
    | some dm =>
        base ++ [("title", .str dm.title), ("author", .str dm.author),
                 ("creation_date", .str dm.creation_date),
                 ("page_count", .nat dm.page_count)]
    | none => base ++ [("error", .str "Invalid PDF file")]

/-- Method `extract_text`: the pdfminer read, any exception (missing
file, corrupt content) modelled as `none`, returns the empty string. -/
def extract_text (r : Option String) : String := r.getD ""

end Metadata

/-! ## FileConverter._generate_unique_filename
(src/file_parser/other_files_parser.py) -/

namespace Converter

/-- Method `_generate_unique_filename`: `existing` is the set of paths
present on disk (`os.path.exists`), `timestamp` is `int(time.time())`;
`os.path.join` is embedded with a slash. -/
def generate_unique_filename (existing : List String)
    (output_dir base_name extension : String) (timestamp : ℕ) : String :=
  let plain := output_dir ++ "/" ++ base_name ++ extension
  if plain ∈ existing then
    output_dir ++ "/" ++ base_name ++ "_" ++ toString timestamp ++ extension
  else plain

end Converter

/-! ## Helper lemmas -/

/-- The scanner maps the empty string to itself. -/
theorem subAllF_nil (m : List Char → Option (Nat × List Char)) (f : ℕ) :
    subAllF m f [] = [] := by
  cases f <;> rfl

/-- A scanner whose matcher fails on every nonempty suffix is the
identity. -/
theorem subAllF_id (m : List Char → Option (Nat × List Char)) :
    ∀ (fuel : ℕ) (s : List Char),
      (∀ t, t <:+ s → t ≠ [] → m t = none) → subAllF m fuel s = s := by
  intro fuel
  induction fuel with
  | zero => intro s _; cases s <;> rfl
  | succ f ih =>
    intro s h
    cases s with
    | nil => rfl
    | cons c cs =>
      have hm := h (c :: cs) (List.suffix_refl _) (by simp)
      rw [subAllF, hm]
      exact congrArg (c :: ·)
        (ih cs fun t ht hne => h t (ht.trans (List.suffix_cons c cs)) hne)

/-- Specialisation of `subAllF_id` to a whole-string run. -/
theorem subAll_id (m : List Char → Option (Nat × List Char)) (s : List Char)
    (h : ∀ t, t <:+ s → t ≠ [] → m t = none) : subAll m s = s :=
  subAllF_id m s.length s h

/-- An anchored scanner whose matcher fails on every nonempty suffix is
the identity. -/
theorem subAnchF_id (m : List Char → Option Nat) :
    ∀ (fuel : ℕ) (b : Bool) (s : List Char),
      (∀ t, t <:+ s → t ≠ [] → m t = none) → subAnchF m fuel b s = s := by
  intro fuel
  induction fuel with
  | zero => intro b s _; cases s <;> rfl
  | succ f ih =>
    intro b s h
    cases s with
    | nil => rfl
    | cons c cs =>
      have hm := h (c :: cs) (List.suffix_refl _) (by simp)
      have hrec := ih (decide (c = '\n')) cs
        fun t ht hne => h t (ht.trans (List.suffix_cons c cs)) hne
      cases b with
      | false => rw [subAnchF, if_neg (by simp), hrec]
      | true => rw [subAnchF, if_pos rfl, hm, hrec]

/-- Specialisation of `subAnchF_id` to a whole-string run. -/
theorem subAnch_id (m : List Char → Option Nat) (s : List Char)
    (h : ∀ t, t <:+ s → t ≠ [] → m t = none) : subAnch m s = s :=
  subAnchF_id m s.length true s h

/-- A delete-only matcher fails exactly when its core fails. -/
theorem mkDel_eq_none (m : List Char → Option Nat) (t : List Char)
    (h : m t = none) : mkDel m t = none := by
  simp [mkDel, h]

/-- A take-while over elements all failing the predicate is empty. -/
theorem takeWhile_eq_nil_of_all {p : Char → Bool} {t : List Char}
    (h : ∀ c ∈ t, p c = false) : t.takeWhile p = [] := by
  cases t with
  | nil => rfl
  | cons c cs => simp [List.takeWhile_cons, h c (List.mem_cons_self c cs)]

/-- A take-while over elements all satisfying the predicate is the whole
list. -/
theorem takeWhile_eq_self_of_all {p : Char → Bool} {t : List Char}
    (h : ∀ c ∈ t, p c = true) : t.takeWhile p = t := by
  induction t with
  | nil => rfl
  | cons c cs ih =>
    simp only [List.takeWhile_cons, h c (List.mem_cons_self c cs), if_true]
    exact congrArg (c :: ·) (ih fun x hx => h x (List.mem_cons_of_mem c hx))

/-- A drop-while over a list whose head fails the predicate is the whole
list. -/
theorem dropWhile_eq_self_of_all {p : Char → Bool} {t : List Char}
    (h : ∀ c ∈ t, p c = false) : t.dropWhile p = t := by
  cases t with
  | nil => rfl
  | cons c cs => simp [List.dropWhile_cons, h c (List.mem_cons_self c cs)]

/-- A prefix of a suffix is an infix. -/
theorem infix_of_prefix_of_suffix {p t s : List Char} (hp : p <+: t)
    (ht : t <:+ s) : p <:+: s := by
  obtain ⟨v, hv⟩ := hp
  obtain ⟨u, hu⟩ := ht
  exact ⟨u, v, by rw [← hu, ← hv]; simp⟩

namespace TextCleaner

/-- Safe characters are not Python whitespace. -/
theorem safe_not_space {c : Char} (h : SafeChar c) : pyIsSpace c = false := by
  obtain ⟨h1, h2⟩ := h
  simp only [pyIsSpace, Bool.or_eq_false_iff, decide_eq_false_iff_not]
  omega

/-- Safe characters are not digits. -/
theorem safe_not_digit {c : Char} (h : SafeChar c) : isDigitA c = false := by
  obtain ⟨h1, h2⟩ := h
  simp only [isDigitA, Bool.and_eq_false_iff, decide_eq_false_iff_not]
  omega

/-- Safe characters are ASCII letters. -/
theorem safe_is_letter {c : Char} (h : SafeChar c) : isAsciiLetter c = true := by
  obtain ⟨h1, h2⟩ := h
  simp only [isAsciiLetter, Bool.or_eq_true, Bool.and_eq_true, decide_eq_true_eq]
  omega

/-- Safe characters are outside the special-character class. -/
theorem safe_not_special {c : Char} (h : SafeChar c) :
    isSpecialChar c = false := by
  obtain ⟨h1, h2⟩ := h
  simp only [isSpecialChar, specialCodes, List.contains_cons,
    List.contains_nil, Bool.or_false, Bool.or_eq_false_iff,
    beq_eq_false_iff_ne, ne_eq]
  omega

/-- Safe characters are not bullets. -/
theorem safe_not_bullet {c : Char} (h : SafeChar c) : isBullet c = false := by
  obtain ⟨h1, h2⟩ := h
  simp only [isBullet, Bool.or_eq_false_iff, decide_eq_false_iff_not]
  omega

/-- Safe characters are not emoji. -/
theorem safe_not_emoji {c : Char} (h : SafeChar c) : isEmojiChar c = false := by
  obtain ⟨h1, h2⟩ := h
  simp only [isEmojiChar, Bool.or_eq_false_iff, Bool.and_eq_false_iff,
    decide_eq_false_iff_not]
  omega

/-- Safe characters survive the final whitelist. -/
theorem safe_allowed {c : Char} (h : SafeChar c) : isAllowedChar c = true := by
  have := safe_is_letter h
  simp [isAllowedChar, isWordChar, this]

/-- ASCII case folding fixes safe characters. -/
theorem safe_toLowerA {c : Char} (h : SafeChar c) : toLowerA c = c := by
  obtain ⟨h1, h2⟩ := h
  rw [toLowerA, if_neg]
  simp only [Bool.and_eq_true, decide_eq_true_eq]
  omega

/-- A safe character differs from any character outside the lowercase
ASCII letter range. -/
theorem safe_ne {c : Char} (h : SafeChar c) {d : Char}
    (hd : d.toNat < 97 ∨ 122 < d.toNat) : c ≠ d := by
  intro e
  subst e
  obtain ⟨h1, h2⟩ := h
  omega

/-- A successful case-insensitive match exhibits a prefix that folds to
the pattern. -/
theorem matchCI_prefix :
    ∀ (pat t : List Char) (k : ℕ), matchCI pat t = some k →
      ∃ u, u <+: t ∧ u.map toLowerA = pat.map toLowerA := by
  intro pat
  induction pat with
  | nil => intro t k _; exact ⟨[], List.nil_prefix, rfl⟩
  | cons p ps ih =>
    intro t k h
    cases t with
    | nil => simp [matchCI] at h
    | cons c cs =>
      rw [matchCI] at h
      by_cases heq : toLowerA c = toLowerA p
      · rw [if_pos heq] at h
        obtain ⟨k', hk', -⟩ := Option.map_eq_some'.mp h
        obtain ⟨u, hu, hmap⟩ := ih cs k' hk'
        exact ⟨c :: u, List.cons_prefix_cons.mpr ⟨rfl, hu⟩, by
          simp [hmap, heq]⟩
      · rw [if_neg heq] at h
        exact absurd h (by simp)

/-- On safe text a case-insensitive match of an already-lowercase pattern
requires the pattern as a literal prefix. -/
theorem matchCI_none_of_not_prefix {pat t : List Char}
    (hsafe : ∀ c ∈ t, SafeChar c) (hpat : pat.map toLowerA = pat)
    (hnp : ¬ pat <+: t) : matchCI pat t = none := by
  cases hm : matchCI pat t with
  | none => rfl
  | some k =>
    obtain ⟨u, hu, hmap⟩ := matchCI_prefix pat t k hm
    have humap : u.map toLowerA = u :=
      (List.map_congr_left fun c hc =>
        safe_toLowerA (hsafe c (hu.subset hc))).trans (List.map_id u)
    rw [humap, hpat] at hmap
    exact absurd (hmap ▸ hu) hnp

/-- The watermark-keyword matcher fails on safe text avoiding the
keywords as prefixes. -/
theorem tryWords_none {t : List Char} (hsafe : ∀ c ∈ t, SafeChar c)
    (h1 : ¬ "confidential".toList <+: t) (h2 : ¬ "draft".toList <+: t)
    (h3 : ¬ "watermark".toList <+: t) : tryWords t = none := by
  rw [tryWords,
    matchCI_none_of_not_prefix hsafe (by decide) h1,
    matchCI_none_of_not_prefix hsafe (by decide) h2,
    matchCI_none_of_not_prefix hsafe (by decide) h3]
  rfl

/-- The page-marker matcher fails on safe text (no digit can follow). -/
theorem tryPage_none {t : List Char} (hsafe : ∀ c ∈ t, SafeChar c) :
    tryPage t = none := by
  cases hm : matchCI ("page".toList) t with
  | none => rw [tryPage, hm]
  | some k =>
    have hws : (t.drop k).takeWhile pyIsSpace = [] :=
      takeWhile_eq_nil_of_all fun c hc =>
        safe_not_space (hsafe c (List.mem_of_mem_drop hc))
    rw [tryPage, hm]
    simp only [hws, List.length_nil, List.drop_zero]
    have hds : (t.drop k).takeWhile isDigitA = [] :=
      takeWhile_eq_nil_of_all fun c hc =>
        safe_not_digit (hsafe c (List.mem_of_mem_drop hc))
    simp [hds]

/-- The page-count matcher fails on safe text (no leading digits). -/
theorem tryNofM_none {t : List Char} (hsafe : ∀ c ∈ t, SafeChar c) :
    tryNofM t = none := by
  have hds : t.takeWhile isDigitA = [] :=
    takeWhile_eq_nil_of_all fun c hc => safe_not_digit (hsafe c hc)
  simp [tryNofM, hds]

/-- The bullet-line matcher fails on safe text (no bullet characters). -/
theorem tryBulletLine_none {t : List Char} (hsafe : ∀ c ∈ t, SafeChar c) :
    tryBulletLine t = none := by
  have hbs : (t.drop (t.takeWhile pyIsSpace).length).takeWhile isBullet = [] :=
    takeWhile_eq_nil_of_all fun c hc =>
      safe_not_bullet (hsafe c (List.mem_of_mem_drop hc))
  simp [tryBulletLine, hbs]

/-- The header-line matcher fails on safe text (no pipe character). -/
theorem tryHeaderLine_none {t : List Char} (hsafe : ∀ c ∈ t, SafeChar c) :
    tryHeaderLine t = none := by
  have hm : t.takeWhile (fun c => isAsciiLetter c || pyIsSpace c) = t :=
    takeWhile_eq_self_of_all fun c hc => by
      simp [safe_is_letter (hsafe c hc)]
  cases t with
  | nil => rfl
  | cons c cs =>
    simp [tryHeaderLine, hm, List.drop_length]

/-- The bracketed-citation matcher fails on safe text. -/
theorem tryBracketNum_none {t : List Char} (hsafe : ∀ c ∈ t, SafeChar c) :
    tryBracketNum t = none := by
  cases t with
  | nil => rfl
  | cons c cs =>
    have hc : c ≠ '[' := safe_ne (hsafe c (List.mem_cons_self c cs)) (by decide)
    simp [tryBracketNum, hc]

/-- The parenthesised-citation matcher fails on safe text. -/
theorem tryParenNum_none {t : List Char} (hsafe : ∀ c ∈ t, SafeChar c) :
    tryParenNum t = none := by
  cases t with
  | nil => rfl
  | cons c cs =>
    have hc : c ≠ '(' := safe_ne (hsafe c (List.mem_cons_self c cs)) (by decide)
    simp [tryParenNum, hc]

/-- The author-year matcher fails on safe text. -/
theorem tryEtAl_none {t : List Char} (hsafe : ∀ c ∈ t, SafeChar c) :
    tryEtAl t = none := by
  cases t with
  | nil => rfl
  | cons c cs =>
    have hc : c ≠ '(' := safe_ne (hsafe c (List.mem_cons_self c cs)) (by decide)
    simp [tryEtAl, hc]

/-- The footnote matcher fails on safe text. -/
theorem tryStarLine_none {t : List Char} (hsafe : ∀ c ∈ t, SafeChar c) :
    tryStarLine t = none := by
  cases t with
  | nil => rfl
  | cons c cs =>
    have hc : c ≠ '*' := safe_ne (hsafe c (List.mem_cons_self c cs)) (by decide)
    simp [tryStarLine, hc]

/-- The newline-run matcher fails on safe text. -/
theorem tryNlRun_none {t : List Char} (hsafe : ∀ c ∈ t, SafeChar c) :
    tryNlRun t = none := by
  have hrun : t.takeWhile (fun c => c = '\n') = [] :=
    takeWhile_eq_nil_of_all fun c hc =>
      decide_eq_false (safe_ne (hsafe c hc) (by decide))
  simp [tryNlRun, hrun]

/-- The whitespace-run matcher fails on safe text. -/
theorem tryWsRun_none {t : List Char} (hsafe : ∀ c ∈ t, SafeChar c) :
    tryWsRun t = none := by
  have hrun : t.takeWhile pyIsSpace = [] :=
    takeWhile_eq_nil_of_all fun c hc => safe_not_space (hsafe c hc)
  simp [tryWsRun, hrun]

/-- The special-run matcher fails on safe text. -/
theorem trySpecialRun_none {t : List Char} (hsafe : ∀ c ∈ t, SafeChar c) :
    trySpecialRun t = none := by
  have hrun : t.takeWhile isSpecialChar = [] :=
    takeWhile_eq_nil_of_all fun c hc => safe_not_special (hsafe c hc)
  cases t with
  | nil => rfl
  | cons c cs => simp [trySpecialRun, hrun]

/-- The lone-newline substitution fixes newline-free text. -/
theorem singleNlAux_id {t : List Char} (hsafe : ∀ c ∈ t, SafeChar c) :
    ∀ prev, singleNlAux prev t = t := by
  induction t with
  | nil => intro prev; rfl
  | cons c cs ih =>
    intro prev
    have hc : c ≠ '\n' :=
      safe_ne (hsafe c (List.mem_cons_self c cs)) (by decide)
    rw [singleNlAux]
    simp only [decide_eq_false hc, Bool.false_and, Bool.false_eq_true,
      if_false]
    exact congrArg (c :: ·)
      (ih (fun x hx => hsafe x (List.mem_cons_of_mem c hx)) (some c))

/-- Character replacement fixes text free of the needle. -/
theorem replaceChar_id {old : Char} {new : List Char} {t : List Char}
    (h : ∀ c ∈ t, c ≠ old) : replaceChar old new t = t := by
  induction t with
  | nil => rfl
  | cons c cs ih =>
    rw [replaceChar, List.flatMap_cons, if_neg (h c (List.mem_cons_self c cs))]
    exact congrArg (c :: ·) (ih fun x hx => h x (List.mem_cons_of_mem c hx))

/-- Trimming fixes whitespace-free text. -/
theorem trimL_id {t : List Char} (hsafe : ∀ c ∈ t, SafeChar c) :
    trimL t = t := by
  rw [trimL, dropWhile_eq_self_of_all fun c hc => safe_not_space (hsafe c hc),
    dropWhile_eq_self_of_all fun c hc =>
      safe_not_space (hsafe c (List.mem_reverse.mp hc)),
    List.reverse_reverse]

/-- The artifact-removal stage fixes safe text. -/
theorem remove_pdf_artifacts_id {s : List Char}
    (hsafe : ∀ c ∈ s, SafeChar c)
    (h1 : ¬ ("confidential".toList <:+: s))
    (h2 : ¬ ("draft".toList <:+: s))
    (h3 : ¬ ("watermark".toList <:+: s)) :
    remove_pdf_artifacts s = s := by
  have hsub : ∀ t, t <:+ s → ∀ c ∈ t, SafeChar c :=
    fun t ht c hc => hsafe c (ht.subset hc)
  rw [remove_pdf_artifacts,
    List.filter_eq_self.mpr fun c hc =>
      decide_eq_true (safe_ne (hsafe c hc) (by decide)),
    subAll_id _ _ fun t ht _ => mkDel_eq_none _ _ (tryPage_none (hsub t ht)),
    subAnch_id _ _ fun t ht _ => tryBulletLine_none (hsub t ht),
    subAll_id _ _ fun t ht _ => mkDel_eq_none _ _
      (tryWords_none (hsub t ht)
        (fun hp => h1 (infix_of_prefix_of_suffix hp ht))
        (fun hp => h2 (infix_of_prefix_of_suffix hp ht))
        (fun hp => h3 (infix_of_prefix_of_suffix hp ht))),
    subAll_id _ _ fun t ht _ => mkDel_eq_none _ _ (tryNofM_none (hsub t ht)),
    subAnch_id _ _ fun t ht _ => tryHeaderLine_none (hsub t ht)]

/-- The whitespace-normalisation stage fixes safe text. -/
theorem normalize_whitespace_id {s : List Char}
    (hsafe : ∀ c ∈ s, SafeChar c) : normalize_whitespace s = s := by
  have hsub : ∀ t, t <:+ s → ∀ c ∈ t, SafeChar c :=
    fun t ht c hc => hsafe c (ht.subset hc)
  rw [normalize_whitespace, singleNlToSpace, singleNlAux_id hsafe,
    subAll_id _ _ fun t ht _ => tryNlRun_none (hsub t ht),
    subAll_id _ _ fun t ht _ => tryWsRun_none (hsub t ht)]

/-- The emoji stage fixes safe text. -/
theorem remove_emojis_id {s : List Char} (hsafe : ∀ c ∈ s, SafeChar c) :
    remove_emojis_and_special_chars s = s := by
  rw [remove_emojis_and_special_chars,
    List.filter_eq_self.mpr fun c hc => by
      rw [safe_not_emoji (hsafe c hc)]; rfl]

/-- The reference-removal stage fixes safe text. -/
theorem remove_references_id {s : List Char}
    (hsafe : ∀ c ∈ s, SafeChar c) : remove_references_and_notes s = s := by
  have hsub : ∀ t, t <:+ s → ∀ c ∈ t, SafeChar c :=
    fun t ht c hc => hsafe c (ht.subset hc)
  rw [remove_references_and_notes,
    subAll_id _ _ fun t ht _ => mkDel_eq_none _ _ (tryBracketNum_none (hsub t ht)),
    subAll_id _ _ fun t ht _ => mkDel_eq_none _ _ (tryParenNum_none (hsub t ht)),
    subAll_id _ _ fun t ht _ => mkDel_eq_none _ _ (tryEtAl_none (hsub t ht)),
    subAll_id _ _ fun t ht _ => mkDel_eq_none _ _ (tryStarLine_none (hsub t ht))]

/-- The punctuation stage fixes safe text (all needles are outside the
lowercase ASCII range). -/
theorem normalize_punctuation_id {s : List Char}
    (hsafe : ∀ c ∈ s, SafeChar c) : normalize_punctuation s = s := by
  rw [normalize_punctuation,
    replaceChar_id fun c hc => safe_ne (hsafe c hc) (by decide),
    replaceChar_id fun c hc => safe_ne (hsafe c hc) (by decide),
    replaceChar_id fun c hc => safe_ne (hsafe c hc) (by decide),
    replaceChar_id fun c hc => safe_ne (hsafe c hc) (by decide),
    replaceChar_id fun c hc => safe_ne (hsafe c hc) (by decide),
    replaceChar_id fun c hc => safe_ne (hsafe c hc) (by decide),
    replaceChar_id fun c hc => safe_ne (hsafe c hc) (by decide)]

/-- The final-cleanup stage fixes safe text. -/
theorem final_cleanup_id {s : List Char} (hsafe : ∀ c ∈ s, SafeChar c) :
    final_cleanup s = s := by
  have hsub : ∀ t, t <:+ s → ∀ c ∈ t, SafeChar c :=
    fun t ht c hc => hsafe c (ht.subset hc)
  rw [final_cleanup,
    subAll_id _ _ fun t ht _ => tryWsRun_none (hsub t ht),
    trimL_id hsafe, remove_repeated_chars,
    subAll_id _ _ fun t ht _ => trySpecialRun_none (hsub t ht),
    List.filter_eq_self.mpr fun c hc => safe_allowed (hsafe c hc)]

/-- The whole cleaning pipeline fixes safe text. -/
theorem clean_textL_id {s : List Char} (hsafe : ∀ c ∈ s, SafeChar c)
    (h1 : ¬ ("confidential".toList <:+: s))
    (h2 : ¬ ("draft".toList <:+: s))
    (h3 : ¬ ("watermark".toList <:+: s)) :
    clean_textL s = s := by
  rw [clean_textL, remove_pdf_artifacts_id hsafe h1 h2 h3,
    normalize_whitespace_id hsafe, remove_emojis_id hsafe,
    remove_references_id hsafe, normalize_punctuation_id hsafe,
    final_cleanup_id hsafe, trimL_id hsafe]

/-- On safe strings, `clean_text` is the identity. -/
theorem clean_text_fixed {s : String} (h : SafeText s) :
    clean_text s = s := by
  obtain ⟨hsafe, h1, h2, h3⟩ := h
  by_cases hs : s = ""
  · rw [hs]; rfl
  · rw [clean_text, if_neg hs, clean_textL_id hsafe h1 h2 h3]
    cases s
    rfl

/-- The scanner result only depends on the fuel through the bound
`length ≤ fuel`. -/
theorem subAllF_fuel_congr (m : List Char → Option (Nat × List Char)) :
    ∀ (f1 : ℕ) (s : List Char) (f2 : ℕ), s.length ≤ f1 → s.length ≤ f2 →
      subAllF m f1 s = subAllF m f2 s := by
  intro f1
  induction f1 with
  | zero =>
    intro s f2 h1 _
    have : s = [] := List.eq_nil_of_length_eq_zero (Nat.le_zero.mp h1)
    subst this
    rw [subAllF_nil, subAllF_nil]
  | succ f ih =>
    intro s f2 h1 h2
    cases s with
    | nil => rw [subAllF_nil, subAllF_nil]
    | cons c cs =>
      cases f2 with
      | zero => simp at h2
      | succ f2' =>
        rw [subAllF, subAllF]
        cases hm : m (c :: cs) with
        | none =>
          exact congrArg (c :: ·) (ih cs f2' (by simpa using h1) (by simpa using h2))
        | some pair =>
          obtain ⟨n, rep⟩ := pair
          cases n with
          | zero =>
            exact congrArg (c :: ·) (ih cs f2' (by simpa using h1) (by simpa using h2))
          | succ n' =>
            refine congrArg (rep ++ ·) (ih (cs.drop n') f2' ?_ ?_) <;>
              · rw [List.length_drop]
                simp at h1 h2
                omega

/-- The last element of a nonempty replicate. -/
theorem getLast?_replicate (c : Char) :
    ∀ n, 1 ≤ n → (List.replicate n c).getLast? = some c := by
  intro n
  induction n with
  | zero => intro h; omega
  | succ k ih =>
    intro _
    cases k with
    | zero => rfl
    | succ k' =>
      rw [List.replicate_succ, show List.replicate (k' + 1) c =
        c :: List.replicate k' c from List.replicate_succ ..,
        List.getLast?_cons_cons]
      exact ih (by omega)

/-- One scanner step when the matcher fails at the head. -/
theorem subAll_cons_none {m : List Char → Option (Nat × List Char)}
    {c : Char} {cs : List Char} (hm : m (c :: cs) = none) :
    subAll m (c :: cs) = c :: subAll m cs := by
  rw [subAll, List.length_cons, subAllF, hm]
  rfl

/-- One scanner step when the matcher succeeds at the head. -/
theorem subAll_cons_some {m : List Char → Option (Nat × List Char)}
    {c : Char} {cs : List Char} {n : ℕ} {rep : List Char}
    (hm : m (c :: cs) = some (n + 1, rep)) :
    subAll m (c :: cs) = rep ++ subAll m (cs.drop n) := by
  rw [subAll, List.length_cons, subAllF, hm]
  show rep ++ subAllF m cs.length (cs.drop n) =
    rep ++ subAll m (cs.drop n)
  refine congrArg (rep ++ ·)
    (subAllF_fuel_congr m cs.length (cs.drop n) (cs.drop n).length ?_
      (le_refl _))
  rw [List.length_drop]
  omega

/-- A take-while does not cross an appended suffix when the last element
of the first part fails the predicate. -/
theorem takeWhile_append_of_getLast {p : Char → Bool} {u : List Char}
    (w : List Char) (hne : u ≠ [])
    (hlast : ∀ z, u.getLast? = some z → p z = false) :
    (u ++ w).takeWhile p = u.takeWhile p := by
  induction u with
  | nil => exact absurd rfl hne
  | cons x u' ih =>
    cases u' with
    | nil =>
      have hx : p x = false := hlast x (by simp)
      simp [List.takeWhile_cons, hx]
    | cons y u'' =>
      have hlast' : ∀ z, (y :: u'').getLast? = some z → p z = false := by
        intro z hz
        exact hlast z (by rw [List.getLast?_cons_cons]; exact hz)
      by_cases hx : p x = true
      · rw [List.cons_append, List.takeWhile_cons, List.takeWhile_cons,
          if_pos hx, if_pos hx]
        exact congrArg (x :: ·) (ih (by simp) hlast')
      · have hx' : p x = false := by simpa using hx
        rw [List.cons_append]
        simp [List.takeWhile_cons, hx']

/-- A take-while absorbs a block satisfying the predicate when the
following text does not continue it. -/
theorem takeWhile_append_of_all {p : Char → Bool} {r v : List Char}
    (hr : ∀ x ∈ r, p x = true) (hv : v.takeWhile p = []) :
    (r ++ v).takeWhile p = r := by
  induction r with
  | nil => rw [List.nil_append]; exact hv
  | cons a r' ih =>
    rw [List.cons_append, List.takeWhile_cons,
      if_pos (hr a (List.mem_cons_self a r'))]
    exact congrArg (a :: ·)
      (ih fun x hx => hr x (List.mem_cons_of_mem a hx))

/-- Dropping a proper prefix preserves the last element. -/
theorem getLast?_drop_of_ne_nil :
    ∀ (l : List Char) (n : ℕ), l.drop n ≠ [] →
      (l.drop n).getLast? = l.getLast? := by
  intro l
  induction l with
  | nil => intro n h; simp at h
  | cons a l' ih =>
    intro n h
    cases n with
    | zero => rfl
    | succ m =>
      rw [List.drop_succ_cons] at h ⊢
      rw [ih m h]
      cases l' with
      | nil => simp at h
      | cons b l'' => rw [List.getLast?_cons_cons]

/-- The special-run scanner splits over an append whose boundary character
(the last of the left part, if any) is not special: no match crosses the
boundary, so the two parts are rewritten independently.  The left part may
contain arbitrary special runs of its own. -/
theorem subAll_special_append :
    ∀ (u w : List Char),
      (∀ z, u.getLast? = some z → isSpecialChar z = false) →
      subAll trySpecialRun (u ++ w) =
        subAll trySpecialRun u ++ subAll trySpecialRun w := by
  have H : ∀ (k : ℕ) (u w : List Char), u.length ≤ k →
      (∀ z, u.getLast? = some z → isSpecialChar z = false) →
      subAll trySpecialRun (u ++ w) =
        subAll trySpecialRun u ++ subAll trySpecialRun w := by
    intro k
    induction k with
    | zero =>
      intro u w hlen _
      have hu : u = [] := List.eq_nil_of_length_eq_zero (Nat.le_zero.mp hlen)
      subst hu
      simp [subAll, subAllF_nil]
    | succ k ih =>
      intro u w hlen hlast
      cases u with
      | nil => simp [subAll, subAllF_nil]
      | cons x u' =>
        rw [List.cons_append]
        have hlen' : u'.length ≤ k := by
          simp only [List.length_cons] at hlen
          omega
        by_cases hx : isSpecialChar x = true
        · have hu' : u' ≠ [] := by
            intro e
            subst e
            have hxl := hlast x (by simp)
            rw [hx] at hxl
            simp at hxl
          have hlast' : ∀ z, u'.getLast? = some z →
              isSpecialChar z = false := by
            intro z hz
            apply hlast
            cases u' with
            | nil => exact absurd rfl hu'
            | cons y u'' => rw [List.getLast?_cons_cons]; exact hz
          have hruncons : (x :: u').takeWhile isSpecialChar =
              x :: u'.takeWhile isSpecialChar := by
            rw [List.takeWhile_cons, if_pos hx]
          have hB : (x :: (u' ++ w)).takeWhile isSpecialChar =
              x :: u'.takeWhile isSpecialChar := by
            have hBa := takeWhile_append_of_getLast (u := x :: u') w
              (by simp) hlast
            rw [List.cons_append] at hBa
            rw [hBa, hruncons]
          obtain ⟨l, hl⟩ : ∃ l,
              (x :: u'.takeWhile isSpecialChar).getLast? = some l := by
            cases o : (x :: u'.takeWhile isSpecialChar).getLast? with
            | some l => exact ⟨l, rfl⟩
            | none =>
              rw [List.getLast?_eq_none_iff] at o
              exact absurd o (by simp)
          have htwle : (u'.takeWhile isSpecialChar).length ≤ u'.length :=
            (List.takeWhile_prefix _).length_le
          by_cases h3 : 3 ≤ (u'.takeWhile isSpecialChar).length + 1
          · have hm1 : trySpecialRun (x :: (u' ++ w)) =
                some ((u'.takeWhile isSpecialChar).length + 1, [l, l]) := by
              simp only [trySpecialRun, hB, hl, List.length_cons]
              rw [if_pos h3]
            have hm2 : trySpecialRun (x :: u') =
                some ((u'.takeWhile isSpecialChar).length + 1, [l, l]) := by
              simp only [trySpecialRun, hruncons, hl, List.length_cons]
              rw [if_pos h3]
            rw [subAll_cons_some hm1, subAll_cons_some hm2]
            have hdrop : (u' ++ w).drop (u'.takeWhile isSpecialChar).length =
                u'.drop (u'.takeWhile isSpecialChar).length ++ w := by
              rw [List.drop_append_eq_append_drop,
                Nat.sub_eq_zero_of_le htwle, List.drop_zero]
            rw [hdrop]
            have hlast2 : ∀ z,
                (u'.drop (u'.takeWhile isSpecialChar).length).getLast? =
                  some z → isSpecialChar z = false := by
              intro z hz
              have hne2 : u'.drop (u'.takeWhile isSpecialChar).length ≠ [] := by
                intro e
                rw [e] at hz
                simp at hz
              rw [getLast?_drop_of_ne_nil u' _ hne2] at hz
              exact hlast' z hz
            have hlen2 :
                (u'.drop (u'.takeWhile isSpecialChar).length).length ≤ k := by
              rw [List.length_drop]
              omega
            rw [ih _ w hlen2 hlast2, List.append_assoc]
          · have hm1 : trySpecialRun (x :: (u' ++ w)) = none := by
              simp only [trySpecialRun, hB, hl, List.length_cons]
              rw [if_neg h3]
            have hm2 : trySpecialRun (x :: u') = none := by
              simp only [trySpecialRun, hruncons, hl, List.length_cons]
              rw [if_neg h3]
            rw [subAll_cons_none hm1, subAll_cons_none hm2,
              ih u' w hlen' hlast', List.cons_append]
        · have hx' : isSpecialChar x = false := by simpa using hx
          have hm1 : trySpecialRun (x :: (u' ++ w)) = none := by
            rw [trySpecialRun]
            simp [List.takeWhile_cons, hx']
          have hm2 : trySpecialRun (x :: u') = none := by
            rw [trySpecialRun]
            simp [List.takeWhile_cons, hx']
          have hlast' : ∀ z, u'.getLast? = some z →
              isSpecialChar z = false := by
            intro z hz
            apply hlast
            cases u' with
            | nil => simp at hz
            | cons y u'' => rw [List.getLast?_cons_cons]; exact hz
          rw [subAll_cons_none hm1, subAll_cons_none hm2,
            ih u' w hlen' hlast', List.cons_append]
  exact fun u w h => H u.length u w (le_refl _) h

/-- The special-run scanner on one maximal run: a block of three or more
special characters, not continued on the right, is replaced by two copies
of its last character, and scanning continues after it. -/
theorem subAll_special_block {r v : List Char} {l : Char}
    (hr : ∀ x ∈ r, isSpecialChar x = true) (h3 : 3 ≤ r.length)
    (hl : r.getLast? = some l)
    (hv : ∀ x ∈ v.take 1, isSpecialChar x = false) :
    subAll trySpecialRun (r ++ v) = [l, l] ++ subAll trySpecialRun v := by
  have hvtw : v.takeWhile isSpecialChar = [] := by
    cases v with
    | nil => rfl
    | cons a as => simp [List.takeWhile_cons, hv a (by simp)]
  cases r with
  | nil => simp at h3
  | cons a r' =>
    rw [List.cons_append]
    have htw : (a :: (r' ++ v)).takeWhile isSpecialChar = a :: r' := by
      have := takeWhile_append_of_all hr hvtw
      rwa [List.cons_append] at this
    have hm : trySpecialRun (a :: (r' ++ v)) =
        some (r'.length + 1, [l, l]) := by
      simp only [trySpecialRun, htw, hl, List.length_cons]
      rw [if_pos (by simpa using h3)]
    rw [subAll_cons_some hm]
    refine congrArg ([l, l] ++ ·) (congrArg _ ?_)
    exact List.drop_left r' v

/-- `remove_repeated_chars` on one maximal special run in arbitrary
context: the text before the run (itself rewritten independently) ends in
a non-special character if nonempty, the run is all special with length
at least 3, and the text after it starts non-special.  The run becomes
two copies of its last character. -/
theorem remove_repeated_chars_maximal_run {u r v : List Char} {l : Char}
    (hu : ∀ z, u.getLast? = some z → isSpecialChar z = false)
    (hr : ∀ x ∈ r, isSpecialChar x = true) (h3 : 3 ≤ r.length)
    (hl : r.getLast? = some l)
    (hv : ∀ x ∈ v.take 1, isSpecialChar x = false) :
    remove_repeated_chars (u ++ r ++ v) =
      remove_repeated_chars u ++ [l, l] ++ remove_repeated_chars v := by
  simp only [remove_repeated_chars]
  rw [List.append_assoc, subAll_special_append u (r ++ v) hu,
    subAll_special_block hr h3 hl hv, ← List.append_assoc]

end TextCleaner

/-- Image records produced by the inner per-page loop pass the size
filter. -/
theorem mem_extractPageImages_size {flag : Bool}
    {d : Option Images.DescriberModel} {pn idx : ℕ}
    {ims : List Images.RawImage} {r : Images.ImageRecord}
    (h : r ∈ Images.extractPageImages flag d pn idx ims) :
    50 ≤ r.width ∧ 50 ≤ r.height := by
  induction ims generalizing idx with
  | nil => simp [Images.extractPageImages] at h
  | cons im ims ih =>
    obtain ⟨pix, sv⟩ := im
    cases pix with
    | none =>
      rw [Images.extractPageImages] at h
      exact ih h
    | some px =>
      rw [Images.extractPageImages, List.mem_append] at h
      rcases h with h | h
      · by_cases hsz : px.width < 50 ∨ px.height < 50
        · rw [if_pos hsz] at h; simp at h
        · rw [if_neg hsz] at h
          by_cases hsv : sv = false
          · rw [if_pos hsv] at h; simp at h
          · rw [if_neg hsv] at h
            simp only [List.mem_singleton] at h
            subst h
            push_neg at hsz
            exact ⟨hsz.1, hsz.2⟩
      · exact ih h

/-- Image records produced by the page loop pass the size filter. -/
theorem mem_extractImagesAux_size {flag : Bool}
    {d : Option Images.DescriberModel} {pn : ℕ}
    {doc : List Images.PageImages} {r : Images.ImageRecord}
    (h : r ∈ Images.extractImagesAux flag d pn doc) :
    50 ≤ r.width ∧ 50 ≤ r.height := by
  induction doc generalizing pn with
  | nil => simp [Images.extractImagesAux] at h
  | cons p ps ih =>
    rw [Images.extractImagesAux, List.mem_append] at h
    rcases h with h | h
    · by_cases hl : p.loadOk
      · rw [if_pos hl] at h; exact mem_extractPageImages_size h
      · rw [if_neg hl] at h; simp at h
    · exact ih h

/-- A produced table record carries its enumeration index. -/
theorem processTable_id {i : ℕ} {t : Tables.RawTable} {r : Tables.TableRecord}
    (h : Tables.processTable i t = some r) : r.table_id = i := by
  simp only [Tables.processTable] at h
  split at h
  · simp at h
  · split at h
    · simp only [Option.some.injEq] at h
      subst h
      rfl
    · simp at h

/-- The guard structure of `processTable` agrees with the pure acceptance
function of shape, content ratio and accuracy. -/
theorem processTable_isSome_iff (i : ℕ) (t : Tables.RawTable) :
    (Tables.processTable i t).isSome = true ↔
      Tables.table_accept (Tables.shapeRows (Tables.clean_table_dataframe t.grid))
        (Tables.shapeCols (Tables.clean_table_dataframe t.grid))
        (Tables.content_ratio (Tables.clean_table_dataframe t.grid))
        t.accuracy := by
  simp only [Tables.processTable, Tables.table_accept]
  set df := Tables.clean_table_dataframe t.grid with hdf
  by_cases hbig : Tables.dfEmpty df = true ∨ Tables.shapeRows df < 2 ∨
      Tables.shapeCols df < 2
  · rw [if_pos hbig]
    simp only [Option.isSome_none, Bool.false_eq_true, false_iff]
    intro hacc
    obtain ⟨⟨hr2, hc2⟩, _⟩ := hacc
    rcases hbig with hb | hb | hb
    · simp only [Tables.dfEmpty, Bool.or_eq_true, decide_eq_true_eq] at hb
      omega
    · omega
    · omega
  · rw [if_neg hbig]
    push_neg at hbig
    obtain ⟨hne, hr, hc⟩ := hbig
    constructor
    · intro h
      split at h
      · next hcond => exact ⟨⟨by omega, by omega⟩, hcond⟩
      · simp at h
    · intro hacc
      rw [if_pos hacc.2]
      rfl

/-- Membership characterisation of the enumeration loop: index `i` has a
record in the output starting at counter `k` exactly when `i` points past
`k` into the list at an accepted table. -/
theorem extract_tablesAux_mem_iff :
    ∀ (ts : List Tables.RawTable) (k i : ℕ),
      (∃ r ∈ Tables.extract_tablesAux k ts, r.table_id = i) ↔
      (∃ j, j < ts.length ∧ k + j = i ∧
        (Tables.processTable i (ts.getD j ⟨[], 0, 0⟩)).isSome = true) := by
  intro ts
  induction ts with
  | nil => intro k i; simp [Tables.extract_tablesAux]
  | cons t ts ih =>
    intro k i
    rw [Tables.extract_tablesAux]
    constructor
    · intro ⟨r, hr, hid⟩
      match hpt : Tables.processTable k t with
      | some r0 =>
        rw [hpt] at hr
        rcases List.mem_cons.mp hr with h | h
        · subst h
          have hk : k = i := by rw [← hid, processTable_id hpt]
          subst hk
          exact ⟨0, by simp, by simp, by rw [List.getD_cons_zero]; simp [hpt]⟩
        · obtain ⟨j, hj, hkj, hps⟩ := (ih (k + 1) i).mp ⟨r, h, hid⟩
          exact ⟨j + 1, by simpa using hj, by omega,
            by rwa [List.getD_cons_succ]⟩
      | none =>
        rw [hpt] at hr
        obtain ⟨j, hj, hkj, hps⟩ := (ih (k + 1) i).mp ⟨r, hr, hid⟩
        exact ⟨j + 1, by simpa using hj, by omega,
          by rwa [List.getD_cons_succ]⟩
    · intro ⟨j, hj, hkj, hps⟩
      match j with
      | 0 =>
        have hk : k = i := by omega
        subst hk
        rw [List.getD_cons_zero] at hps
        match hpt : Tables.processTable k t with
        | some r0 =>
          exact ⟨r0, List.mem_cons_self _ _, processTable_id hpt⟩
        | none => rw [hpt] at hps; simp at hps
      | j + 1 =>
        rw [List.getD_cons_succ] at hps
        have hrec := (ih (k + 1) i).mpr ⟨j, by simpa using hj, by omega, hps⟩
        obtain ⟨r, hr, hid⟩ := hrec
        match hpt : Tables.processTable k t with
        | some r0 => exact ⟨r, List.mem_cons_of_mem _ hr, hid⟩
        | none => exact ⟨r, hr, hid⟩

/-! ## Claim theorems -/

/-- C3.  For every document that opens, `create_structured_content`
produces exactly one `PageContent` per page: the list has one entry per
page and its page numbers are exactly `1..page_count` in ascending order
(`List.range' 1 n` is `[1, ..., n]`), even when pages have no text and no
images. -/
theorem c3_structured_content_pages (doc : List Formatter.PageSpec)
    (images : List Images.ImageRecord) :
    (Formatter.create_structured_content doc images).length = doc.length ∧
    (Formatter.create_structured_content doc images).map
      (fun pc => pc.page) = List.range' 1 doc.length := by
  constructor
  · simp [Formatter.create_structured_content]
  · simp only [Formatter.create_structured_content, List.map_map]
    rw [List.range'_eq_map_range]
    congr 1
    funext pn
    simp [Nat.add_comm]

/-- C4.  Every image record returned by `extract_images` has width and
height at least 50: smaller embedded images are discarded. -/
theorem c4_image_min_size (doc : List Images.PageImages) (flag : Bool)
    (d : Option Images.DescriberModel) :
    ∀ r ∈ Images.extract_images doc flag d, 50 ≤ r.width ∧ 50 ≤ r.height :=
  fun _ h => mem_extractImagesAux_size h

/-- C4 witness: a 60 by 70 image on page 1 is retained and the theorem
applies to it. -/
theorem c4_witness :
    50 ≤ (⟨1, "image_p1_1.png", 60, 70, 2, "No description available"⟩ :
      Images.ImageRecord).width ∧
    50 ≤ (⟨1, "image_p1_1.png", 60, 70, 2, "No description available"⟩ :
      Images.ImageRecord).height :=
  c4_image_min_size [⟨true, [⟨some ⟨60, 70, 2048⟩, true⟩]⟩] false none
    ⟨1, "image_p1_1.png", 60, 70, 2, "No description available"⟩
    (by
      show _ ∈ Images.extractImagesAux false none 0 _
      rw [Images.extractImagesAux, Images.extractImagesAux,
        Images.extractPageImages, Images.extractPageImages]
      norm_num [Images.get_image_description]
      rfl)

/-- C5.  The description policy: when the collaborator is disabled or
absent, no attempt is made and the "No description available" sentinel is
returned directly; otherwise the path-based attempt is made exactly once,
the bytes-based retry happens exactly once precisely when the path-based
outcome starts with the error sentinel or equals the unavailable
sentinel, and in that case the reported description is the bytes-based
outcome. -/
theorem c5_description_retry_policy (flag : Bool)
    (ds : Option Images.DescriberModel) :
    (flag = false ∨ ds = none →
      Images.get_image_description flag ds = ("No description available", 0, 0)) ∧
    (∀ d, ds = some d → flag = true →
      (Images.get_image_description flag ds).2.1 = 1 ∧
      (Images.get_image_description flag ds).2.2 =
        (if Images.needsRetry (Images.describe_image d) then 1 else 0) ∧
      (Images.needsRetry (Images.describe_image d) = true →
        (Images.get_image_description flag ds).1 =
          Images.describe_image_from_bytes d)) := by
  constructor
  · intro h
    rcases h with h | h <;> subst h
    · cases ds <;> rfl
    · cases flag <;> rfl
  · intro d hd hf
    subst hd; subst hf
    unfold Images.get_image_description
    by_cases hretry : Images.needsRetry (Images.describe_image d) = true
    · simp [hretry]
    · simp only [Bool.not_eq_true] at hretry
      simp [hretry]

/-- C5 witness: the theorem applied to a disabled collaborator and to an
enabled one whose path-based outcome is an error sentinel. -/
theorem c5_witness :
    Images.get_image_description false none = ("No description available", 0, 0) ∧
    (Images.get_image_description true
      (some ⟨true, "Error: boom", "fallback"⟩)).2.2 = 1 := by
  refine ⟨(c5_description_retry_policy false none).1 (Or.inl rfl), ?_⟩
  have h := ((c5_description_retry_policy true
    (some ⟨true, "Error: boom", "fallback"⟩)).2
    ⟨true, "Error: boom", "fallback"⟩ rfl rfl).2.1
  rw [h]
  decide

/-- C6.  When reading the filesystem stats fails, `extract_metadata`
returns a record whose only key is `error`, whatever the document-level
read would have yielded, and no exception escapes (the model is total). -/
theorem c6_metadata_stat_failure (docRes : Option Metadata.DocMeta) :
    (Metadata.extract_metadata none docRes).map Prod.fst = ["error"] := by
  cases docRes <;> rfl

/-- C7.  When the stats succeed but the document is corrupt,
`extract_metadata` returns exactly the three filesystem keys plus an
`error` key, and `extract_text` independently returns the empty string. -/
theorem c7_metadata_corrupt_document (st : Metadata.FileStats) :
    (Metadata.extract_metadata (some st) none).map Prod.fst =
      ["filename", "file_size_mb", "modified_time", "error"] ∧
    Metadata.extract_text none = "" :=
  ⟨rfl, rfl⟩

/-- C9 counterexample.  With both the plain path and the
timestamp-suffixed path already on disk, `_generate_unique_filename`
returns a path that already exists — the claim's "returns a path that
does not already exist in the output directory, for every filesystem
state" is false. -/
theorem c9_counterexample :
    Converter.generate_unique_filename
      ["assets/doc.pdf", "assets/doc_100.pdf"] "assets" "doc" ".pdf" 100 ∈
      ["assets/doc.pdf", "assets/doc_100.pdf"] := by
  decide

/-- C9 amended.  `_generate_unique_filename` returns the plain base-name
path when no file occupies it and otherwise the timestamp-suffixed path;
the result does not already exist provided the timestamped variant is not
itself occupied (which the code never checks). -/
theorem c9_unique_filename_amended (existing : List String)
    (dir base ext : String) (ts : ℕ)
    (h : dir ++ "/" ++ base ++ "_" ++ toString ts ++ ext ∉ existing) :
    Converter.generate_unique_filename existing dir base ext ts ∉ existing ∧
    (dir ++ "/" ++ base ++ ext ∉ existing →
      Converter.generate_unique_filename existing dir base ext ts =
        dir ++ "/" ++ base ++ ext) := by
  unfold Converter.generate_unique_filename
  by_cases hp : dir ++ "/" ++ base ++ ext ∈ existing
  · rw [if_pos hp]
    exact ⟨h, fun hn => absurd hp hn⟩
  · rw [if_neg hp]
    exact ⟨hp, fun _ => rfl⟩

/-- C9 witness: the theorem applied to a directory holding only the plain
path. -/
theorem c9_witness :
    Converter.generate_unique_filename ["assets/doc.pdf"] "assets" "doc"
      ".pdf" 100 ∉ ["assets/doc.pdf"] :=
  (c9_unique_filename_amended ["assets/doc.pdf"] "assets" "doc" ".pdf" 100
    (by decide)).1

/-- C10.  `extract_tables` never propagates an error: whenever the body of
its `try` block (the camelot read and all per-table processing) raises —
modelled as an `Except.error` input — the call returns the empty list. -/
theorem c10_extract_tables_never_raises (msg : String) :
    Tables.extract_tables (Except.error msg) = [] :=
  rfl

/-- C1 counterexample.  On the grid `[[a, sp], [b, sp]]` (where `sp` is a
single space) the cleaning rule stated by the claim — drop rows and
columns that are entirely empty after whitespace trimming — leaves a
single column, so the claim demands outright rejection whatever the
accuracy; the code keeps the whitespace-only column (its `dropna` sees
only exact empties), a 2 by 2 grid remains, and a record is emitted. -/
theorem c1_counterexample :
    Tables.shapeCols (Tables.spec_clean_table [["a", " "], ["b", " "]]) < 2 ∧
    Tables.extract_tables
      (Except.ok [⟨[["a", " "], ["b", " "]], 50, 1⟩]) ≠ [] := by
  constructor
  · decide
  · have hps : (Tables.processTable 0
        (⟨[["a", " "], ["b", " "]], 50, 1⟩ : Tables.RawTable)).isSome = true := by
      rw [processTable_isSome_iff]
      show Tables.table_accept
        (Tables.shapeRows (Tables.clean_table_dataframe [["a", " "], ["b", " "]]))
        (Tables.shapeCols (Tables.clean_table_dataframe [["a", " "], ["b", " "]]))
        (Tables.content_ratio (Tables.clean_table_dataframe [["a", " "], ["b", " "]]))
        50
      rw [show Tables.clean_table_dataframe [["a", " "], ["b", " "]] =
        [["a", ""], ["b", ""]] from by decide]
      exact ⟨⟨by decide, by decide⟩, Or.inr (by norm_num)⟩
    intro hnil
    obtain ⟨r, hr, _⟩ :=
      (extract_tablesAux_mem_iff [⟨[["a", " "], ["b", " "]], 50, 1⟩] 0 0).mpr
        ⟨0, by decide, by omega, hps⟩
    rw [show Tables.extract_tablesAux 0 [⟨[["a", " "], ["b", " "]], 50, 1⟩] =
      Tables.extract_tables (Except.ok [⟨[["a", " "], ["b", " "]], 50, 1⟩])
      from rfl, hnil] at hr
    simp at hr

/-- C1 amended.  A detected grid at enumeration index `i` yields a record
exactly when, after the code's cleaning (drop rows and columns whose cells
are all exactly empty, then drop rows that are blank post-trim — a
whitespace-only column survives), at least 2 rows and 2 columns remain and
`content_ratio > 0.1` or `accuracy > 40` (logical OR); and the pure
acceptance decision sends `(accuracy 50, ratio 0.05, shape 3 by 3)` to
accepted, `(accuracy 10, ratio 0.05, shape 3 by 3)` to rejected, and
`(accuracy 10, ratio 0.2, shape 3 by 3)` to accepted. -/
theorem c1_table_acceptance_amended :
    (∀ (ts : List Tables.RawTable) (i : ℕ), i < ts.length →
      ((∃ r ∈ Tables.extract_tables (Except.ok ts), r.table_id = i) ↔
        Tables.table_accept
          (Tables.shapeRows
            (Tables.clean_table_dataframe ((ts.getD i ⟨[], 0, 0⟩).grid)))
          (Tables.shapeCols
            (Tables.clean_table_dataframe ((ts.getD i ⟨[], 0, 0⟩).grid)))
          (Tables.content_ratio
            (Tables.clean_table_dataframe ((ts.getD i ⟨[], 0, 0⟩).grid)))
          ((ts.getD i ⟨[], 0, 0⟩).accuracy))) ∧
    Tables.table_accept 3 3 (1/20) 50 ∧
    ¬ Tables.table_accept 3 3 (1/20) 10 ∧
    Tables.table_accept 3 3 (1/5) 10 := by
  refine ⟨?_,
    ⟨⟨by norm_num, by norm_num⟩, Or.inr (by norm_num)⟩,
    fun h => by rcases h.2 with h2 | h2 <;> norm_num at h2,
    ⟨⟨by norm_num, by norm_num⟩, Or.inl (by norm_num)⟩⟩
  intro ts i hi
  rw [show Tables.extract_tables (Except.ok ts) =
    Tables.extract_tablesAux 0 ts from rfl]
  rw [extract_tablesAux_mem_iff ts 0 i]
  constructor
  · intro ⟨j, hj, hkj, hps⟩
    have hji : j = i := by omega
    subst hji
    exact (processTable_isSome_iff _ _).mp hps
  · intro hacc
    exact ⟨i, hi, by omega, (processTable_isSome_iff i _).mpr hacc⟩

/-- C2 counterexample.  Cleaning is not idempotent: stripping the tilde
from `Pag~e 3` in the final pass materialises the page-marker artifact
`Page 3`, which a second application removes entirely. -/
theorem c2_counterexample :
    TextCleaner.clean_text (TextCleaner.clean_text "Pag~e 3") ≠
      TextCleaner.clean_text "Pag~e 3" ∧
    TextCleaner.clean_text "Pag~e 3" = "Page 3" ∧
    TextCleaner.clean_text "Page 3" = "" := by
  refine ⟨?_, ?_, ?_⟩ <;> decide

/-- C2 amended.  `clean_text` is not idempotent in general — a second
application can strip artifact patterns materialised by the final
character whitelist — but it is idempotent (indeed the identity) on text
made of lowercase ASCII letters avoiding the watermark keywords. -/
theorem c2_clean_text_idempotent_amended (s : String)
    (h : TextCleaner.SafeText s) :
    TextCleaner.clean_text (TextCleaner.clean_text s) =
      TextCleaner.clean_text s := by
  rw [TextCleaner.clean_text_fixed h]
  exact TextCleaner.clean_text_fixed h

/-- C2 witness: the amended theorem applied to the safe string
`hello`. -/
theorem c2_witness :
    TextCleaner.clean_text (TextCleaner.clean_text "hello") =
      TextCleaner.clean_text "hello" :=
  c2_clean_text_idempotent_amended "hello" (by decide)

/-- C8 counterexample.  The final pass collapses any run of three or more
special characters, identical or not, to two copies of the run's last
character: on `a...//b` the claimed identical-run rule would keep the
three dots as two dots (and the later whitelist would drop the two
slashes), giving `a..b`, but the code replaces the whole five-character
run by two slashes, which the whitelist then removes — `ab`. -/
theorem c8_counterexample :
    TextCleaner.spec_clean_text "a...//b" = "a..b" ∧
    TextCleaner.clean_text "a...//b" = "ab" := by
  constructor <;> decide

/-- C8 amended.  `clean_text('Hello...World') = 'Hello..World'`; in
`remove_repeated_chars` every maximal run of three or more special
characters — identical or not, in arbitrary context: the character before
the run (if any) and the character after it (if any) are not special —
is replaced by exactly two copies of the run's last character, the
surrounding text being rewritten independently; in particular a maximal
run of `n ≥ 3` identical special characters collapses to exactly two
occurrences of that character. -/
theorem c8_repeated_chars_amended :
    TextCleaner.clean_text "Hello...World" = "Hello..World" ∧
    (∀ (u r v : List Char) (l : Char),
      (∀ z, u.getLast? = some z → isSpecialChar z = false) →
      (∀ x ∈ r, isSpecialChar x = true) →
      3 ≤ r.length →
      r.getLast? = some l →
      (∀ x ∈ v.take 1, isSpecialChar x = false) →
      TextCleaner.remove_repeated_chars (u ++ r ++ v) =
        TextCleaner.remove_repeated_chars u ++ [l, l] ++
          TextCleaner.remove_repeated_chars v) ∧
    (∀ (u v : List Char) (c : Char) (n : ℕ), 3 ≤ n →
      isSpecialChar c = true →
      (∀ z, u.getLast? = some z → isSpecialChar z = false) →
      (∀ x ∈ v.take 1, isSpecialChar x = false) →
      TextCleaner.remove_repeated_chars (u ++ List.replicate n c ++ v) =
        TextCleaner.remove_repeated_chars u ++ [c, c] ++
          TextCleaner.remove_repeated_chars v) :=
  ⟨by decide,
   fun _ _ _ _ hu hr h3 hl hv =>
     TextCleaner.remove_repeated_chars_maximal_run hu hr h3 hl hv,
   fun _ v c n h3 hc hu hv =>
     TextCleaner.remove_repeated_chars_maximal_run hu
       (fun x hx => by rw [List.eq_of_mem_replicate hx]; exact hc)
       (by rw [List.length_replicate]; exact h3)
       (TextCleaner.getLast?_replicate c n (by omega)) hv⟩

/-- C8 witness: the amended theorem applied to `a=b....c` — the maximal
four-dot run after the earlier lone `=` collapses to two dots while the
prefix is rewritten independently. -/
theorem c8_witness :
    TextCleaner.remove_repeated_chars
      ("a=b".toList ++ List.replicate 4 '.' ++ "c".toList) =
      TextCleaner.remove_repeated_chars ("a=b".toList) ++ ['.', '.'] ++
        TextCleaner.remove_repeated_chars ("c".toList) :=
  c8_repeated_chars_amended.2.2 "a=b".toList "c".toList '.' 4 (by omega)
    (by decide)
    (by
      intro z hz
      rw [show ("a=b".toList).getLast? = some 'b' from by decide] at hz
      injection hz with h
      subst h
      decide)
    (by decide)

/-- C1 witness: a dense 2 by 2 grid with accuracy 50 at index 0 is
accepted, by the amended theorem. -/
theorem c1_witness :
    ∃ r ∈ Tables.extract_tables
      (Except.ok [⟨[["x", "u"], ["y", "v"]], 50, 1⟩]), r.table_id = 0 :=
  (c1_table_acceptance_amended.1 [⟨[["x", "u"], ["y", "v"]], 50, 1⟩] 0
    (by decide)).mpr
    (by
      show Tables.table_accept
        (Tables.shapeRows (Tables.clean_table_dataframe [["x", "u"], ["y", "v"]]))
        (Tables.shapeCols (Tables.clean_table_dataframe [["x", "u"], ["y", "v"]]))
        (Tables.content_ratio (Tables.clean_table_dataframe [["x", "u"], ["y", "v"]]))
        50
      rw [show Tables.clean_table_dataframe [["x", "u"], ["y", "v"]] =
        [["x", "u"], ["y", "v"]] from by decide]
      exact ⟨⟨by decide, by decide⟩, Or.inr (by norm_num)⟩)

end VoiceMate
